import Mathlib


/-!
Verification of the vtpy tag-export data-access layer (`src/vtpy.py`).

The Python source is shallowly embedded as follows.

* Python `dict[str, str]` (and the other string-keyed dictionaries in the
  source) become insertion-ordered association lists `List (String × β)`.
  `lookupKey` models `d[k]` / `k in d.keys()` (first matching entry), and
  `setKey` models `d[k] = v` (update the value in place when the key is
  present, append a fresh entry otherwise), which is exactly CPython's
  insertion-order-preserving dictionary behaviour.
* The class-level mutable cache `Tag._column_names` becomes an explicit
  `ColCache` value threaded through the operations that read or extend it.
* Fallible Python code (KeyError / IndexError / raised exceptions) becomes
  `Option` or `Except String` results; the exception message strings of the
  source are kept verbatim where the source raises explicitly.
* The Microsoft Access database behind `pyodbc` is modelled as a `Store`:
  a list of named tables, each a column-name list plus rows of string
  values in column order.  Parameterized SQL statements are modelled by
  their row-level meaning (`select ... where [c] = ?` = first row whose
  value in column `c` equals the parameter, `like '%' + ?` = suffix match,
  positional `update`/`insert` = pointwise row rewrite / row append), and
  `cursor.commit()` by only publishing the new store when no exception was
  raised earlier in the call.
-/

/-- First value bound to key `k` in an association list; models Python
`d[k]` (`none` = `KeyError`) and `k in d.keys()` (`isSome`). -/
def lookupKey {β : Type} : List (String × β) → String → Option β
  | [], _ => none
  | p :: rest, k => if p.1 == k then some p.2 else lookupKey rest k

/-- Rewrite every entry whose key is `k` to value `v` (the entry keeps its
position).  This is the "key already present" half of Python `d[k] = v`. -/
def updateKey {β : Type} (l : List (String × β)) (k : String) (v : β) : List (String × β) :=
  l.map (fun p => if p.1 == k then (k, v) else p)

/-- Python `d[k] = v`: update in place when present, append otherwise. -/
def setKey {β : Type} (l : List (String × β)) (k : String) (v : β) : List (String × β) :=
  if (lookupKey l k).isSome then updateKey l k v else l ++ [(k, v)]

/-! ## Python string primitives

The string methods the source relies on (`str.split`, `str.replace`,
`str.endswith` via SQL `like '%' + ?`, `str.rstrip`) are embedded as
structurally recursive functions on the character list of the string, so
that every concrete computation reduces inside the kernel.  `splitGo` is
Python `str.split(sep)` for a non-empty separator: a greedy left-to-right
scan; the fuel argument is the length of the remaining input, which only
shrinks, so the `0` case is never reached from `pySplit`. -/

def splitGo (sep : List Char) : Nat → List Char → List Char → List (List Char)
  | _, acc, [] => [acc.reverse]
  | 0, acc, cs => [acc.reverse ++ cs]
  | fuel + 1, acc, c :: cs =>
    if sep.isPrefixOf (c :: cs) then
      acc.reverse :: splitGo sep fuel [] ((c :: cs).drop sep.length)
    else
      splitGo sep fuel (c :: acc) cs

/-- Python `s.split(sep)` (non-empty `sep`). -/
def pySplit (s sep : String) : List String :=
  (splitGo sep.data s.data.length [] s.data).map (fun cs => ⟨cs⟩)

/-- Python `s.replace(old, new)` (non-empty `old`): replace every
non-overlapping occurrence, scanning left to right. -/
def pyReplace (s old new : String) : String :=
  ⟨((splitGo old.data s.data.length [] s.data).intersperse new.data).flatten⟩

/-- Python `s.endswith(suffix)`; also the meaning of the Access predicate
`Name like '%' + ?` for a parameter without wildcard characters. -/
def pyEndsWith (s suffix : String) : Bool :=
  suffix.data.isSuffixOf s.data

/-- Python `s.rstrip('\n')`: drop trailing newline characters. -/
def pyRstripNewline (s : String) : String :=
  ⟨(s.data.reverse.dropWhile (fun c => c == '\n')).reverse⟩

/-! ## The `Tag` record class (`src/vtpy.py`, `class Tag`) -/

/-- In-memory representation of one row of a named table: `tag_type` is the
table name, `value_dict` the insertion-ordered column→value dictionary
(`self.value_dict` in the source). -/
structure Tag where
  tag_type : String
  value_dict : List (String × String)
deriving DecidableEq, Repr

/-- The process-wide `Tag._column_names` class attribute: table name →
column order, threaded explicitly through the embedding. -/
abbrev ColCache := List (String × List String)

/-- `Tag.id_col`: the identity column name. -/
def Tag.id_col : String := "Export Info - leave blank for new records"

/-- The value-dictionary built by `Tag.__init__`:
`self.value_dict = dict(zip(columns, values))` (zip truncates to the shorter
list; a repeated column keeps its first position, last value). -/
def dictOfZip (columns values : List String) : List (String × String) :=
  (columns.zip values).foldl (fun d p => setKey d p.1 p.2) []

/-- The pure part of `Tag.__init__`: the constructed record. -/
def Tag.make (tag_type : String) (columns values : List String) : Tag :=
  ⟨tag_type, dictOfZip columns values⟩

/-- The cache effect of `Tag.__init__`:
`if tag_type not in Tag._column_names.keys(): Tag._column_names[tag_type] = columns`. -/
def Tag.updateCache (cache : ColCache) (tag_type : String) (columns : List String) : ColCache :=
  if (lookupKey cache tag_type).isSome then cache else cache ++ [(tag_type, columns)]

/-- `Tag.__init__` in full: the new record plus the updated class-level
column cache. -/
def Tag.init (cache : ColCache) (tag_type : String) (columns values : List String) :
    Tag × ColCache :=
  (Tag.make tag_type columns values, Tag.updateCache cache tag_type columns)

/-- `Tag.set`: `self.value_dict[column] = value`.  Pure counterpart of the
in-place mutation; does not touch the column cache. -/
def Tag.set (t : Tag) (column value : String) : Tag :=
  { t with value_dict := setKey t.value_dict column value }

/-- `Tag.get`: the value for the column, or `none` if the column is not in
`self.value_dict` (the source returns Python `None`). -/
def Tag.get (t : Tag) (column : String) : Option String :=
  lookupKey t.value_dict column

/-- `[self.value_dict[col] for col in columns]`: left-to-right projection,
`none` models the `KeyError` raised at the first missing column. -/
def mapValues (d : List (String × String)) : List String → Option (List String)
  | [] => some []
  | c :: rest =>
    match lookupKey d c, mapValues d rest with
    | some v, some vs => some (v :: vs)
    | _, _ => none

/-- `Tag.values_as_list`: project `value_dict` into the cached column order
for `self.tag_type`.  `none` models the `KeyError` raised when the tag type
is not cached or a cached column is missing from `value_dict`; the spec
calls this failure SchemaError. -/
def Tag.values_as_list (t : Tag) (cache : ColCache) : Option (List String) :=
  (lookupKey cache t.tag_type).bind (fun columns => mapValues t.value_dict columns)

/-- The three identity columns cleared by `Tag.remove_id_info`. -/
def Tag.id_properties : List String := [Tag.id_col, "AuditName", "Original Shortname"]

/-- One loop iteration of `Tag.remove_id_info`:
`if prop in self.value_dict.keys(): self.set(prop, '')`. -/
def stripOne (t : Tag) (prop : String) : Tag :=
  if (lookupKey t.value_dict prop).isSome then t.set prop "" else t

/-- `Tag.remove_id_info`: clear the identity columns that are present.  The
source mutates `self` and returns it; the embedding returns the updated
record. -/
def Tag.remove_id_info (t : Tag) : Tag :=
  Tag.id_properties.foldl stripOne t

/-- `Tag.columns`: the cached column order for this record's tag type
(`KeyError`, i.e. `none`, when the type was never cached). -/
def Tag.columns (t : Tag) (cache : ColCache) : Option (List String) :=
  lookupKey cache t.tag_type

/-- `Tag.shortname`: `self.get("Name").split('\\')[-1]` — `none` models the
`AttributeError` when the `Name` column is absent.  The Python literal
`'\\'` is a single backslash. -/
def Tag.shortname (t : Tag) : Option String :=
  (t.get "Name").map (fun n => (pySplit n "\\").getLastD "")

/-- `tags_by_type[key].append(tag)` / `tags_by_type[key] = [tag]`: one loop
iteration of `Tag.separate_tags_by_type`, generalised over the key
function so the same grouping also serves the reference-level model of
`add_tags`. -/
def groupInsert {α : Type} (key : α → String) (acc : List (String × List α)) (x : α) :
    List (String × List α) :=
  match lookupKey acc (key x) with
  | some g => updateKey acc (key x) (g ++ [x])
  | none => acc ++ [(key x, [x])]

/-- The grouping loop of `Tag.separate_tags_by_type`. -/
def groupByKey {α : Type} (key : α → String) :
    List (String × List α) → List α → List (String × List α)
  | acc, [] => acc
  | acc, x :: xs => groupByKey key (groupInsert key acc x) xs

/-- `Tag.separate_tags_by_type`: group a tag list into an (insertion-ordered)
dictionary `{ tag_type: [Tag] }`. -/
def Tag.separate_tags_by_type (tag_list : List Tag) : List (String × List Tag) :=
  groupByKey (fun t => t.tag_type) [] tag_list

/-! ## The backing store and the `DBConnection` class

The Access database is modelled as a list of named tables; a table is its
ordered column-name list plus its rows, each row a list of string values
aligned with the columns.  A parameterized query is modelled by its
row-level meaning; an SQL failure (unknown table / unknown column in a
query) is the `"SqlError"` outcome. -/

structure DBTable where
  columns : List String
  rows : List (List String)
deriving DecidableEq, Repr

abbrev Store := List (String × DBTable)

/-- Position of column `c` in a column list (first occurrence), i.e. how the
SQL engine resolves a column name to a field of a row. -/
def colIndex (cols : List String) (c : String) : Option Nat :=
  match cols with
  | [] => none
  | x :: rest => if x == c then some 0 else (colIndex rest c).map (fun i => i + 1)

/-- `DBConnection.get_columns_by_type`: `select *` and read
`cursor.description`.  Returns the column list paired with the lines the
function prints (`print(tag_type)` when the description is empty).  It is
only called on enumerated table names, for which the lookup succeeds; the
`getD []` covers the impossible miss. -/
def DBConnection.get_columns_by_type (db : Store) (tag_type : String) :
    List String × List String :=
  let cols := ((lookupKey db tag_type).map (fun tbl => tbl.columns)).getD []
  (cols, if cols.isEmpty then [tag_type] else [])

/-- `DBConnection.__init__` after `pyodbc.connect` succeeded: enumerate the
user tables and cache `{table_name: columns}`; second component is
everything printed while doing so.  Connection failures (spec
ConnectionError) are outside this model. -/
def DBConnection.init (db : Store) : List (String × List String) × List String :=
  (db.map (fun p => (p.1, (DBConnection.get_columns_by_type db p.1).1)),
   (db.map (fun p => (DBConnection.get_columns_by_type db p.1).2)).flatten)

/-- The `where Name like '%' + ?` predicate of `get_tag_by_name`, applied to
one row: the row's `Name` value ends with the last `'\\'`-separated segment
of the argument (`name.split('\\\\')[-1]` — the Python literal `'\\\\'` is
two backslashes).  A `like` parameter containing SQL wildcards is not
modelled; Access `like` is modelled as a case-sensitive suffix test. -/
def nameMatches (tbl : DBTable) (name : String) (row : List String) : Bool :=
  (((colIndex tbl.columns "Name").bind (fun i => row[i]?)).map
    (fun s => pyEndsWith s ((pySplit name "\\\\").getLastD ""))).getD false

/-- `DBConnection.get_tag_by_name`: fetch the first row of `tag_type` whose
`Name` ends with the given suffix and materialize it with the cached
columns (`self.table_columns[tag_type]`, which `DBConnection.init` sets to
the table's own column list).  `none` for no match; the claims only use it
on existing tables, so an unknown table is also `none` here.  The
class-level column-cache side effect of `Tag(...)` is `Tag.updateCache`,
treated separately. -/
def DBConnection.get_tag_by_name (db : Store) (tag_type name : String) : Option Tag :=
  match lookupKey db tag_type with
  | none => none
  | some tbl =>
    match tbl.rows.find? (fun row => nameMatches tbl name row) with
    | some row => some (Tag.make tag_type tbl.columns row)
    | none => none

/-- `where [Export Info - leave blank for new records] = ?` applied to one
row, given the resolved index `i` of the identity column.  A `None`
parameter (tag without the identity field) matches nothing, like SQL
`NULL`. -/
def matchesUid (i : Nat) (uid : Option String) (row : List String) : Bool :=
  match uid with
  | some v => row[i]? == some v
  | none => false

/-- One `set [c] = ?` assignment of the positional update, resolved against
the table's columns. -/
def setNamed (cols : List String) (row : List String) (c w : String) : List String :=
  match colIndex cols c with
  | some j => row.set j w
  | none => row

/-- The whole `set` list of the update applied to one row. -/
def updateRow (cols : List String) (row : List String) : List (String × String) → List String
  | [] => row
  | p :: rest => updateRow cols (setNamed cols row p.1 p.2) rest

/-- The body of the inner loop of `DBConnection.update_tags` for one tag:
select the existing row by identity (raising the source's
`"Update failed - tag not found."` when absent), then issue the positional
update of every cached column, keyed by the identity field.  `ucols` is
`updated_columns = Tag._column_names[tag_type]`. -/
def process_one (cache : ColCache) (T : String) (ucols : List String) (s : Store) (tag : Tag) :
    Except String Store :=
  match lookupKey s T with
  | none => .error "SqlError"
  | some tbl =>
    match colIndex tbl.columns Tag.id_col with
    | none => .error "SqlError"
    | some i =>
      let uid := tag.get Tag.id_col
      match tbl.rows.find? (fun row => matchesUid i uid row) with
      | none => .error "Update failed - tag not found."
      | some _ =>
        match tag.values_as_list cache with
        | none => .error "KeyError"
        | some values =>
          if ucols.all (fun c => (colIndex tbl.columns c).isSome) then
            .ok (updateKey s T
              ⟨tbl.columns,
               tbl.rows.map (fun row =>
                 if matchesUid i uid row then updateRow tbl.columns row (ucols.zip values)
                 else row)⟩)
          else .error "SqlError"

/-- The inner loop of `update_tags` over one table group. -/
def update_group (cache : ColCache) (T : String) (ucols : List String) :
    Store → List Tag → Except String Store
  | s, [] => .ok s
  | s, t :: rest =>
    match process_one cache T ucols s t with
    | .ok s' => update_group cache T ucols s' rest
    | .error e => .error e

/-- The outer loop of `update_tags` over the table groups;
`updated_columns = Tag._column_names[tag_type]` is read once per group
(`KeyError` when the type was never cached). -/
def update_groups (cache : ColCache) : Store → List (String × List Tag) → Except String Store
  | s, [] => .ok s
  | s, (T, g) :: rest =>
    match lookupKey cache T with
    | none => .error "KeyError"
    | some ucols =>
      match update_group cache T ucols s g with
      | .ok s' => update_groups cache s' rest
      | .error e => .error e

/-- `DBConnection.update_tags` up to the final `cursor.commit()`. -/
def update_tags (cache : ColCache) (store : Store) (tag_list : List Tag) :
    Except String Store :=
  update_groups cache store (Tag.separate_tags_by_type tag_list)

/-- `DBConnection.update_tags` as observed through the connection: on
success the single trailing `cursor.commit()` publishes the new store; an
exception propagates before the commit, so the store keeps its old
contents and the error message is reported. -/
def run_update_tags (cache : ColCache) (store : Store) (tag_list : List Tag) :
    Store × Option String :=
  match update_tags cache store tag_list with
  | .ok s' => (s', none)
  | .error e => (store, some e)

/-- Placeholder `Tag` for out-of-range heap indices; Python references are
always valid, so it never matters for the claims. -/
def dfltTag : Tag := ⟨"", []⟩

/-- The `insert into {tag_type} ([c1],...) values (?,...)` of `add_tags`
for one (already stripped) tag: named columns are `Tag._column_names` for
the type, values positional from `values_as_list`; a column the table does
not have is an SQL error; columns of the table the statement does not name
get the empty default. -/
def insertRowQuery (cache : ColCache) (store : Store) (T : String) (t1 : Tag) :
    Except String Store :=
  match t1.values_as_list cache with
  | none => .error "KeyError"
  | some values =>
    match lookupKey cache T with
    | none => .error "KeyError"
    | some ucols =>
      match lookupKey store T with
      | none => .error "SqlError"
      | some tbl =>
        if ucols.all (fun c => (colIndex tbl.columns c).isSome) then
          .ok (updateKey store T
            ⟨tbl.columns,
             tbl.rows ++ [tbl.columns.map (fun c => (lookupKey (ucols.zip values) c).getD "")]⟩)
        else .error "SqlError"

/-- The inner loop of `DBConnection.add_tags` over one table group.  Tags
live in an explicit heap (`List Tag`) and the loop works on references
(indices) into it, so that the in-place mutation performed by
`tag.remove_id_info()` on the caller's objects is visible in the result:
the heap entry is overwritten before the insert is issued. -/
def add_refs (cache : ColCache) (T : String) (flag : Bool) :
    Store → List Tag → List Nat → Except String (Store × List Tag)
  | store, heap, [] => .ok (store, heap)
  | store, heap, r :: rest =>
    let t := heap.getD r dfltTag
    let t1 := if flag then t.remove_id_info else t
    let heap1 := heap.set r t1
    match insertRowQuery cache store T t1 with
    | .ok store' => add_refs cache T flag store' heap1 rest
    | .error e => .error e

/-- The outer loop of `add_tags` over the table groups. -/
def add_groups (cache : ColCache) (flag : Bool) :
    Store → List Tag → List (String × List Nat) → Except String (Store × List Tag)
  | store, heap, [] => .ok (store, heap)
  | store, heap, (T, g) :: rest =>
    match add_refs cache T flag store heap g with
    | .ok (store', heap') => add_groups cache flag store' heap' rest
    | .error e => .error e

/-- `DBConnection.add_tags(tag_list, remove_id_info)`: group the references
by the tag type of the object they point to (`Tag.separate_tags_by_type`
applied to references), then insert group by group, stripping each tag in
place first when the flag is set.  On success (`cursor.commit()` reached)
the result is the new store plus the final state of the caller's tag
objects. -/
def add_tags (cache : ColCache) (store : Store) (heap : List Tag) (refs : List Nat)
    (flag : Bool) : Except String (Store × List Tag) :=
  add_groups cache flag store heap
    (groupByKey (fun r => (heap.getD r dfltTag).tag_type) [] refs)

/-! ## The flat-file property parser (`GetTagValues`)

The filesystem side (glob over `{app_path}\Tags\{tag_type}_*\*.tag` and
reading the files) is external; the parser is modelled on the list of all
lines read, in file order, as the source's inner loop sees them. -/

/-- One iteration of the line loop of `GetTagValues`: split on commas,
double every backslash of the tag id (`line[0].replace('\\', '\\\\')`),
strip the `<type>` suffix from the property name, right-strip the value,
and insert, raising the source's duplicate-property message when the
(tag id, property) pair is already present.  A line without a comma is the
source's `IndexError` on `line[1]`. -/
def parse_tag_line (tag_dict : List (String × List (String × String))) (line : String) :
    Except String (List (String × List (String × String))) :=
  let parts := pySplit line ","
  match parts[1]? with
  | none => .error "IndexError"
  | some p1 =>
    let tag_id := pyReplace (parts.getD 0 "") "\\" "\\\\"
    let prop_name : String := ⟨p1.data.takeWhile (fun c => !(c == '<'))⟩
    let prop_val := if parts.length == 3 then pyRstripNewline (parts.getD 2 "") else ""
    match lookupKey tag_dict tag_id with
    | some inner =>
      if (lookupKey inner prop_name).isSome then
        .error ("DUPLICATE PROPERTY FOUND ON TAG ID = " ++ tag_id)
      else
        .ok (setKey tag_dict tag_id (setKey inner prop_name prop_val))
    | none => .ok (tag_dict ++ [(tag_id, [(prop_name, prop_val)])])

/-- The line loop of `GetTagValues`. -/
def GetTagValues_lines :
    List (String × List (String × String)) → List String →
    Except String (List (String × List (String × String)))
  | acc, [] => .ok acc
  | acc, line :: rest =>
    match parse_tag_line acc line with
    | .ok acc' => GetTagValues_lines acc' rest
    | .error e => .error e

/-- `GetTagValues`, as a function of the lines of the matched tag files:
`{tag_id : {property : value}}`. -/
def GetTagValues (lines : List String) :
    Except String (List (String × List (String × String))) :=
  GetTagValues_lines [] lines

/-! ## Fixtures for the concrete parts of the claims -/

/-- A store with one `AB_AI` table holding the spec's example row
`Name = "\\Plant\\Area1\\LT101"` (literal backslashes). -/
def exampleStore : Store :=
  [("AB_AI", ⟨["Name", Tag.id_col], [["\\\\Plant\\\\Area1\\\\LT101", "ID7"]]⟩)]

/-- Column cache after constructing one record of type `"T"` with the
single column `"A"`. -/
def c1cache : ColCache := [("T", ["A"])]

/-- A record of type `"T"` given an extra field `"B"` (allowed by
`Tag.set`, which performs no schema validation). -/
def c1r : Tag := (Tag.make "T" ["A"] ["x"]).set "B" "y"

/-- Cache, store and tag for the `update_tags` not-found scenario: the
store's only `T`-row has identity `"ID1"`, the tag carries `"ID9"`. -/
def c2cache : ColCache := [("T", ["Name", Tag.id_col])]

def c2store : Store := [("T", ⟨["Name", Tag.id_col], [["A", "ID1"]]⟩)]

def c2tag : Tag := Tag.make "T" ["Name", Tag.id_col] ["X", "ID9"]

/-- A database whose only table has no columns at all. -/
def c3db : Store := [("T", ⟨[], []⟩)]

/-- Heap/store fixture for the `add_tags` in-place stripping claim. -/
def c10heap : List Tag := [Tag.make "T" ["Name", Tag.id_col] ["N1", "E1"]]

def c10store : Store := [("T", ⟨["Name", Tag.id_col], []⟩)]

/-- The two example lines of the property-file claim (each `\\` is two
backslash characters, exactly as written in the claim). -/
def c9lines : List String := ["\\\\P\\\\T1,TAG<S>,VAL1", "\\\\P\\\\T1,DESC<S>,VAL2"]

/-- "Every entry for column `p` already holds the empty string." -/
def keyBlank (l : List (String × String)) (p : String) : Prop :=
  ∀ q ∈ l, q.1 = p → q.2 = ""

/-! ## The not-found behaviour of `update_tags` (claim C2) -/

/-- Column lists of the store, the part of its state `update_tags` never
changes. -/
def colsOf (s : Store) (T : String) : Option (List String) :=
  (lookupKey s T).map (fun tbl => tbl.columns)

/-- "No row of `t`'s table matches `t`'s identity value": the condition
under which the source's `select ... where [Export Info - ...] = ?`
fetches nothing and `update_tags` raises. -/
def unmatchedP (s : Store) (t : Tag) : Prop :=
  ∀ tbl, lookupKey s t.tag_type = some tbl →
    ∀ i, colIndex tbl.columns Tag.id_col = some i →
      ∀ row ∈ tbl.rows, matchesUid i (t.get Tag.id_col) row = false

/-- The per-tag side conditions under which `update_tags` can only fail
with the not-found error: the tag serializes against the class cache, its
table exists, and that table has the identity column and every cached
column. -/
def tagReadyB (cache : ColCache) (store : Store) (t : Tag) : Bool :=
  (t.values_as_list cache).isSome &&
  ((colsOf store t.tag_type).any (fun cols =>
    (colIndex cols Tag.id_col).isSome &&
    ((lookupKey cache t.tag_type).getD []).all (fun c => (colIndex cols c).isSome)))

/-- Decidable form of `unmatchedP` for concrete witnesses. -/
def tagUnmatchedB (store : Store) (t : Tag) : Bool :=
  (lookupKey store t.tag_type).all (fun tbl =>
    (colIndex tbl.columns Tag.id_col).all (fun i =>
      tbl.rows.all (fun row => !(matchesUid i (t.get Tag.id_col) row))))

@[simp] theorem lookupKey_nil {β : Type} (k : String) :
    lookupKey ([] : List (String × β)) k = none := rfl

@[simp] theorem lookupKey_cons {β : Type} (p : String × β) (rest : List (String × β)) (k : String) :
    lookupKey (p :: rest) k = if p.1 == k then some p.2 else lookupKey rest k := rfl

theorem lookupKey_append {β : Type} (l m : List (String × β)) (k : String) :
    lookupKey (l ++ m) k =
      match lookupKey l k with
      | some v => some v
      | none => lookupKey m k := by
  induction l with
  | nil => simp
  | cons p rest ih =>
    by_cases h : p.1 == k <;> simp [h, ih]

theorem lookupKey_eq_none_iff {β : Type} (l : List (String × β)) (k : String) :
    lookupKey l k = none ↔ ∀ p ∈ l, p.1 ≠ k := by
  induction l with
  | nil => simp
  | cons p rest ih =>
    by_cases h : p.1 == k
    · simp only [lookupKey_cons, h, if_pos]
      constructor
      · intro hc; cases hc
      · intro hall
        exact absurd (by simpa using h) (hall p (List.mem_cons_self p rest))
    · simp only [lookupKey_cons, h, if_neg, ih, Bool.false_eq_true, not_false_iff]
      constructor
      · intro hall q hq
        rcases List.mem_cons.mp hq with rfl | hq'
        · simpa using h
        · exact hall q hq'
      · intro hall q hq
        exact hall q (List.mem_cons_of_mem p hq)

theorem mem_of_lookupKey {β : Type} {l : List (String × β)} {k : String} {v : β}
    (h : lookupKey l k = some v) : (k, v) ∈ l := by
  induction l with
  | nil => simp at h
  | cons p rest ih =>
    simp only [lookupKey_cons, beq_iff_eq] at h
    by_cases hk : p.1 = k
    · rw [if_pos hk] at h
      have : p.2 = v := by simpa using h
      exact List.mem_cons.mpr (Or.inl (by cases p with | mk a b => simp_all))
    · rw [if_neg hk] at h
      exact List.mem_cons_of_mem p (ih h)

theorem lookupKey_of_mem_nodup {β : Type} {l : List (String × β)} {k : String} {v : β}
    (hnd : (l.map Prod.fst).Nodup) (hm : (k, v) ∈ l) : lookupKey l k = some v := by
  induction l with
  | nil => simp at hm
  | cons p rest ih =>
    simp only [List.map_cons, List.nodup_cons] at hnd
    rcases List.mem_cons.mp hm with rfl | hm'
    · simp
    · have hne : p.1 ≠ k := by
        intro hk
        exact hnd.1 (by
          subst hk
          exact List.mem_map.mpr ⟨(p.1, v), hm', rfl⟩)
      simp only [lookupKey_cons, ih hnd.2 hm']
      simp [hne]

theorem lookupKey_updateKey_self {β : Type} (l : List (String × β)) (k : String) (v : β) :
    lookupKey (updateKey l k v) k = (lookupKey l k).map (fun _ => v) := by
  induction l with
  | nil => simp [updateKey]
  | cons p rest ih =>
    simp only [updateKey, List.map_cons, lookupKey_cons, beq_iff_eq] at ih ⊢
    by_cases hpk : p.1 = k
    · simp [hpk]
    · simp [hpk, ih]

theorem lookupKey_updateKey_ne {β : Type} (l : List (String × β)) (k : String) (v : β)
    {c : String} (hck : ¬ c = k) :
    lookupKey (updateKey l k v) c = lookupKey l c := by
  induction l with
  | nil => rfl
  | cons p rest ih =>
    have hkc : ¬ k = c := fun h => hck h.symm
    simp only [updateKey, List.map_cons, lookupKey_cons, beq_iff_eq] at ih ⊢
    by_cases hpk : p.1 = k
    · simp [hpk, hkc, ih]
    · simp [hpk, ih]

@[simp] theorem lookupKey_updateKey {β : Type} (l : List (String × β)) (k : String) (v : β)
    (c : String) :
    lookupKey (updateKey l k v) c =
      if c = k then (lookupKey l k).map (fun _ => v) else lookupKey l c := by
  by_cases hck : c = k
  · subst hck
    simp [lookupKey_updateKey_self]
  · simp [hck, lookupKey_updateKey_ne l k v hck]

theorem updateKey_map_fst {β : Type} (l : List (String × β)) (k : String) (v : β) :
    (updateKey l k v).map Prod.fst = l.map Prod.fst := by
  induction l with
  | nil => rfl
  | cons p rest ih =>
    simp only [updateKey, List.map_cons] at ih ⊢
    by_cases hpk : p.1 = k
    · simp only [List.cons.injEq]
      exact ⟨by simp [hpk], ih⟩
    · simp only [List.cons.injEq]
      exact ⟨by simp [hpk], ih⟩

theorem updateKey_of_forall {β : Type} {l : List (String × β)} {k : String} {v : β}
    (h : ∀ p ∈ l, p.1 = k → p.2 = v) : updateKey l k v = l := by
  induction l with
  | nil => rfl
  | cons p rest ih =>
    have hrest : updateKey rest k v = rest :=
      ih (fun q hq => h q (List.mem_cons_of_mem p hq))
    simp only [updateKey, List.map_cons, beq_iff_eq] at hrest ⊢
    by_cases hpk : p.1 = k
    · have hv : p.2 = v := h p (List.mem_cons_self p rest) hpk
      have hp : (k, v) = p := by cases p with | mk a b => simp_all
      rw [if_pos hpk, hrest, hp]
    · rw [if_neg hpk, hrest]

theorem updateKey_key_val {β : Type} {l : List (String × β)} {k : String} {v : β}
    {q : String × β} (hq : q ∈ updateKey l k v) (hk : q.1 = k) : q.2 = v := by
  induction l with
  | nil => simp [updateKey] at hq
  | cons p rest ih =>
    simp only [updateKey, List.map_cons] at hq
    rcases List.mem_cons.mp hq with rfl | hq'
    · by_cases hpk : p.1 == k
      · simp [hpk] at *
      · have : p.1 ≠ k := by simpa using hpk
        simp only [hpk, if_neg, Bool.false_eq_true, not_false_iff] at hk ⊢
        exact absurd hk this
    · exact ih hq'

theorem mem_updateKey {β : Type} {l : List (String × β)} {k : String} {v : β}
    {q : String × β} (hq : q ∈ updateKey l k v) : (q.1 = k ∧ q.2 = v) ∨ q ∈ l := by
  induction l with
  | nil => simp [updateKey] at hq
  | cons p rest ih =>
    simp only [updateKey, List.map_cons] at hq
    rcases List.mem_cons.mp hq with rfl | hq'
    · by_cases hpk : p.1 == k
      · simp [hpk]
      · right; simp [hpk]
    · rcases ih hq' with h | h
      · exact Or.inl h
      · exact Or.inr (List.mem_cons_of_mem p h)

@[simp] theorem lookupKey_setKey {β : Type} (l : List (String × β)) (k : String) (v : β)
    (c : String) :
    lookupKey (setKey l k v) c = if c = k then some v else lookupKey l c := by
  unfold setKey
  by_cases hs : (lookupKey l k).isSome
  · rcases Option.isSome_iff_exists.mp hs with ⟨w, hw⟩
    simp [hs, hw, lookupKey_updateKey]
  · have hnone : lookupKey l k = none := Option.not_isSome_iff_eq_none.mp hs
    rw [if_neg (by simp [hs])]
    rw [lookupKey_append]
    by_cases hck : c = k
    · subst hck; simp [hnone]
    · have hkc : ¬ k = c := fun h => hck h.symm
      cases h : lookupKey l c <;> simp [hck, h, hkc]

/-! ## Lemmas about value projection and reconstruction -/

theorem mapValues_isSome_iff (d : List (String × String)) (cols : List String) :
    (mapValues d cols).isSome ↔ ∀ c ∈ cols, (lookupKey d c).isSome := by
  induction cols with
  | nil => simp [mapValues]
  | cons c rest ih =>
    simp only [mapValues]
    cases h : lookupKey d c with
    | none =>
      simp only [Option.isSome_none, Bool.false_eq_true, false_iff]
      intro hall
      have := hall c (List.mem_cons_self c rest)
      simp [h] at this
    | some v =>
      cases h2 : mapValues d rest with
      | none =>
        simp only [Option.isSome_none, Bool.false_eq_true, false_iff]
        intro hall
        have : (mapValues d rest).isSome :=
          ih.mpr (fun c' hc' => hall c' (List.mem_cons_of_mem c hc'))
        simp [h2] at this
      | some vs =>
        simp only [Option.isSome_some, true_iff]
        intro c' hc'
        rcases List.mem_cons.mp hc' with rfl | hc''
        · simp [h]
        · have : (mapValues d rest).isSome := by simp [h2]
          exact (ih.mp this) c' hc''

theorem mapValues_eq_none_iff (d : List (String × String)) (cols : List String) :
    mapValues d cols = none ↔ ∃ c ∈ cols, lookupKey d c = none := by
  rw [← Option.not_isSome_iff_eq_none, mapValues_isSome_iff]
  push_neg
  constructor
  · rintro ⟨c, hc, h⟩
    exact ⟨c, hc, Option.not_isSome_iff_eq_none.mp (by simpa using h)⟩
  · rintro ⟨c, hc, h⟩
    exact ⟨c, hc, by simp [h]⟩

theorem mapValues_length {d : List (String × String)} {cols : List String} {vs : List String}
    (h : mapValues d cols = some vs) : vs.length = cols.length := by
  induction cols generalizing vs with
  | nil => simp [mapValues] at h; simp [← h]
  | cons c rest ih =>
    simp only [mapValues] at h
    cases h1 : lookupKey d c with
    | none => simp [h1] at h
    | some v =>
      cases h2 : mapValues d rest with
      | none => simp [h1, h2] at h
      | some vs' =>
        simp only [h1, h2] at h
        cases h
        simp [ih h2]

theorem mapValues_zip {d : List (String × String)} {cols : List String} {vs : List String}
    (h : mapValues d cols = some vs) :
    ∀ p ∈ cols.zip vs, lookupKey d p.1 = some p.2 := by
  induction cols generalizing vs with
  | nil =>
    intro p hp
    simp at hp
  | cons c rest ih =>
    simp only [mapValues] at h
    cases h1 : lookupKey d c with
    | none => simp [h1] at h
    | some v =>
      cases h2 : mapValues d rest with
      | none => simp [h1, h2] at h
      | some vs' =>
        simp only [h1, h2] at h
        cases h
        intro p hp
        rcases List.mem_cons.mp hp with rfl | hp'
        · simpa using h1
        · exact ih h2 p hp'

theorem lookupKey_foldl_setKey (pairs : List (String × String)) (d : List (String × String))
    (f : String → Option String) (hf : ∀ p ∈ pairs, f p.1 = some p.2) (c : String) :
    lookupKey (pairs.foldl (fun d p => setKey d p.1 p.2) d) c =
      if pairs.any (fun p => p.1 == c) then f c else lookupKey d c := by
  induction pairs generalizing d with
  | nil => simp
  | cons p rest ih =>
    have hp : f p.1 = some p.2 := hf p (List.mem_cons_self p rest)
    rw [List.foldl_cons, ih (setKey d p.1 p.2) (fun q hq => hf q (List.mem_cons_of_mem p hq))]
    by_cases hrest : rest.any (fun q => q.1 == c)
    · simp [hrest]
    · by_cases hc : p.1 = c
      · subst hc
        simp [hrest, hp]
      · have : ¬ c = p.1 := fun h => hc h.symm
        simp [hrest, hc, this]

theorem lookupKey_dictOfZip {d : List (String × String)} {cols vals : List String}
    (hmv : mapValues d cols = some vals) (c : String) :
    lookupKey (dictOfZip cols vals) c = if c ∈ cols then lookupKey d c else none := by
  have hlen : vals.length = cols.length := mapValues_length hmv
  have hzip := mapValues_zip hmv
  have hfst : (cols.zip vals).map Prod.fst = cols :=
    List.map_fst_zip cols vals (le_of_eq hlen.symm)
  unfold dictOfZip
  rw [lookupKey_foldl_setKey _ [] (fun k => lookupKey d k) hzip]
  by_cases hc : c ∈ cols
  · have hmem : c ∈ (cols.zip vals).map Prod.fst := by rw [hfst]; exact hc
    rcases List.mem_map.mp hmem with ⟨p, hpmem, hpeq⟩
    have : (cols.zip vals).any (fun p => p.1 == c) = true :=
      List.any_eq_true.mpr ⟨p, hpmem, by simp [hpeq]⟩
    simp [this, hc]
  · have : (cols.zip vals).any (fun p => p.1 == c) = false := by
      rw [List.any_eq_false]
      intro p hpmem
      have : p.1 ∈ cols := by rw [← hfst]; exact List.mem_map_of_mem Prod.fst hpmem
      simp only [beq_iff_eq]
      intro hpc
      exact hc (hpc ▸ this)
    simp [this, hc]

/-! ## Lemmas about the grouping loop -/

theorem lookupKey_groupInsert {α : Type} (key : α → String) (acc : List (String × List α))
    (x : α) (c : String) :
    lookupKey (groupInsert key acc x) c =
      if c = key x then some ((lookupKey acc (key x)).getD [] ++ [x]) else lookupKey acc c := by
  unfold groupInsert
  cases h : lookupKey acc (key x) with
  | some g =>
    rw [lookupKey_updateKey]
    by_cases hc : c = key x
    · simp [hc, h]
    · simp [hc]
  | none =>
    rw [lookupKey_append]
    by_cases hc : c = key x
    · subst hc
      simp [h]
    · have hxc : ¬ key x = c := by intro hh; exact hc hh.symm
      cases h2 : lookupKey acc c <;> simp [h2, hc, hxc]

theorem lookupKey_groupByKey {α : Type} (key : α → String) (l : List α)
    (acc : List (String × List α)) (c : String) :
    lookupKey (groupByKey key acc l) c =
      match lookupKey acc c, l.filter (fun x => key x == c) with
      | some g, f => some (g ++ f)
      | none, [] => none
      | none, f => some f := by
  induction l generalizing acc with
  | nil =>
    cases h : lookupKey acc c <;> simp [groupByKey, h]
  | cons x xs ih =>
    simp only [groupByKey]
    rw [ih (groupInsert key acc x), lookupKey_groupInsert]
    by_cases hc : c = key x
    · have hkey : (key x == c) = true := by simp [hc]
      rw [if_pos hc, List.filter_cons]
      simp only [hkey, if_true]
      cases h : lookupKey acc c with
      | some g =>
        rw [hc] at h
        simp [h, hc]
      | none =>
        rw [hc] at h
        simp only [h, Option.getD_none, List.nil_append]
        cases hf : xs.filter (fun y => key y == c) <;> simp
    · have hkey : (key x == c) = false := by
        simp only [beq_eq_false_iff_ne, ne_eq]
        intro hh; exact hc hh.symm
      rw [if_neg hc, List.filter_cons]
      simp only [hkey, Bool.false_eq_true, if_false]

theorem groupByKey_keys_nodup {α : Type} (key : α → String) (l : List α)
    (acc : List (String × List α)) (h : (acc.map Prod.fst).Nodup) :
    ((groupByKey key acc l).map Prod.fst).Nodup := by
  induction l generalizing acc with
  | nil => simpa [groupByKey] using h
  | cons x xs ih =>
    simp only [groupByKey]
    apply ih
    unfold groupInsert
    cases hl : lookupKey acc (key x) with
    | some g => rw [updateKey_map_fst]; exact h
    | none =>
      rw [List.map_append]
      have hnot : key x ∉ acc.map Prod.fst := by
        intro hmem
        rcases List.mem_map.mp hmem with ⟨p, hp, hpe⟩
        exact ((lookupKey_eq_none_iff acc (key x)).mp hl) p hp hpe
      simp only [List.map_cons, List.map_nil]
      exact List.Nodup.append h (List.nodup_singleton _)
        (by intro a ha hb; simp at hb; subst hb; exact hnot ha)

theorem groupByKey_entry {α : Type} {key : α → String} {l : List α} {T : String} {g : List α}
    (hentry : (T, g) ∈ groupByKey key [] l) :
    g = l.filter (fun x => key x == T) ∧ g ≠ [] := by
  have hnd : ((groupByKey key [] l).map Prod.fst).Nodup :=
    groupByKey_keys_nodup key l [] (by simp)
  have hlk : lookupKey (groupByKey key [] l) T = some g :=
    lookupKey_of_mem_nodup hnd hentry
  rw [lookupKey_groupByKey] at hlk
  simp only [lookupKey_nil] at hlk
  cases hf : l.filter (fun x => key x == T) with
  | nil => rw [hf] at hlk; cases hlk
  | cons y ys =>
    rw [hf] at hlk
    simp only [Option.some.injEq] at hlk
    subst hlk
    exact ⟨rfl, by simp⟩

/-! ## Lemmas about identity stripping -/

@[simp] theorem stripOne_tag_type (t : Tag) (p : String) :
    (stripOne t p).tag_type = t.tag_type := by
  unfold stripOne Tag.set
  split <;> rfl

theorem get_stripOne (t : Tag) (p c : String) :
    (stripOne t p).get c = if c = p then (t.get p).map (fun _ => "") else t.get c := by
  unfold stripOne Tag.set Tag.get
  cases h : lookupKey t.value_dict p with
  | some v =>
    simp only [h, Option.isSome_some, if_pos]
    rw [lookupKey_setKey]
    by_cases hc : c = p
    · simp [hc, h]
    · simp [hc]
  | none =>
    simp only [h, Option.isSome_none, Bool.false_eq_true, if_false]
    by_cases hc : c = p
    · simp [hc, h]
    · simp [hc]

/-- `remove_id_info` is the three `stripOne` steps in source order. -/
theorem remove_id_info_eq (t : Tag) :
    t.remove_id_info = stripOne (stripOne (stripOne t Tag.id_col) "AuditName") "Original Shortname" := rfl

@[simp] theorem remove_id_info_tag_type (t : Tag) :
    t.remove_id_info.tag_type = t.tag_type := by
  rw [remove_id_info_eq]
  simp

theorem get_remove_id_info (t : Tag) (c : String) :
    t.remove_id_info.get c =
      if c ∈ Tag.id_properties then (t.get c).map (fun _ => "") else t.get c := by
  rw [remove_id_info_eq]
  by_cases hc3 : c = "Original Shortname"
  · subst hc3
    simp [get_stripOne, Tag.id_properties,
      show ¬("Original Shortname" = "AuditName") from by decide,
      show ¬("Original Shortname" = Tag.id_col) from by decide]
  · by_cases hc2 : c = "AuditName"
    · subst hc2
      simp [get_stripOne, Tag.id_properties,
        show ¬("AuditName" = "Original Shortname") from by decide,
        show ¬("AuditName" = Tag.id_col) from by decide]
    · by_cases hc1 : c = Tag.id_col
      · subst hc1
        simp [get_stripOne, Tag.id_properties,
          show ¬(Tag.id_col = "Original Shortname") from by decide,
          show ¬(Tag.id_col = "AuditName") from by decide]
      · simp [get_stripOne, Tag.id_properties, hc1, hc2, hc3]

theorem stripOne_of_keyBlank {t : Tag} {p : String} (h : keyBlank t.value_dict p) :
    stripOne t p = t := by
  unfold stripOne Tag.set setKey
  cases hl : lookupKey t.value_dict p with
  | none => simp [hl]
  | some v =>
    simp only [hl, Option.isSome_some, if_pos]
    rw [updateKey_of_forall h]

theorem keyBlank_stripOne_self (t : Tag) (p : String) :
    keyBlank (stripOne t p).value_dict p := by
  unfold stripOne Tag.set setKey
  cases hl : lookupKey t.value_dict p with
  | none =>
    simp only [hl, Option.isSome_none, Bool.false_eq_true, if_false]
    intro q hq hqp
    exact absurd hqp (((lookupKey_eq_none_iff _ _).mp hl) q hq)
  | some v =>
    simp only [hl, Option.isSome_some, if_pos]
    intro q hq hqp
    exact updateKey_key_val hq hqp

theorem keyBlank_stripOne {t : Tag} {p : String} (p' : String)
    (h : keyBlank t.value_dict p) : keyBlank (stripOne t p').value_dict p := by
  unfold stripOne Tag.set setKey
  cases hl : lookupKey t.value_dict p' with
  | none => simpa [hl] using h
  | some v =>
    simp only [hl, Option.isSome_some, if_pos]
    intro q hq hqp
    rcases mem_updateKey hq with ⟨_, hval⟩ | hmem
    · exact hval
    · exact h q hmem hqp

theorem remove_id_info_idem (t : Tag) :
    t.remove_id_info.remove_id_info = t.remove_id_info := by
  have h1 : keyBlank t.remove_id_info.value_dict Tag.id_col := by
    rw [remove_id_info_eq]
    exact keyBlank_stripOne _ (keyBlank_stripOne _ (keyBlank_stripOne_self t Tag.id_col))
  have h2 : keyBlank t.remove_id_info.value_dict "AuditName" := by
    rw [remove_id_info_eq]
    exact keyBlank_stripOne _ (keyBlank_stripOne_self (stripOne t Tag.id_col) "AuditName")
  have h3 : keyBlank t.remove_id_info.value_dict "Original Shortname" := by
    rw [remove_id_info_eq]
    exact keyBlank_stripOne_self _ "Original Shortname"
  rw [remove_id_info_eq t.remove_id_info]
  rw [stripOne_of_keyBlank h1, stripOne_of_keyBlank h2]
  exact stripOne_of_keyBlank h3

/-! ## Claim theorems -/

/-- Claim C1, counterexample: the record `c1r` of table `"T"` (cached
columns `["A"]`) carries the extra field `"B"`; `values_as_list` succeeds
on it, but the record rebuilt from `("T", ["A"], ["x"])` does not agree
with `c1r` on field `"B"`, so the reconstruction is not equal to `c1r` in
all fields. -/
theorem values_as_list_roundtrip_cex :
    c1r.values_as_list c1cache = some ["x"] ∧
    lookupKey c1cache c1r.tag_type = some ["A"] ∧
    (Tag.make c1r.tag_type ["A"] ["x"]).get "B" = none ∧
    c1r.get "B" = some "y" := by
  refine ⟨by decide, by decide, by decide, by decide⟩

/-- Claim C1 (amended): for a record whose field set is contained in the
cached column order of its table — the record invariant of the spec — a
successful `values_as_list` has exactly one value per cached column, and
rebuilding a record from the table name, the cached columns and that value
list yields a record of the same type that agrees with the original on
every column. -/
theorem values_as_list_roundtrip (cache : ColCache) (r : Tag) (cols vals : List String)
    (hc : lookupKey cache r.tag_type = some cols)
    (hsub : ∀ p ∈ r.value_dict, p.1 ∈ cols)
    (hs : r.values_as_list cache = some vals) :
    vals.length = cols.length ∧
    (Tag.make r.tag_type cols vals).tag_type = r.tag_type ∧
    (∀ c, (Tag.make r.tag_type cols vals).get c = r.get c) := by
  have hmv : mapValues r.value_dict cols = some vals := by
    unfold Tag.values_as_list at hs
    rw [hc] at hs
    simpa using hs
  refine ⟨mapValues_length hmv, rfl, ?_⟩
  intro c
  show lookupKey (dictOfZip cols vals) c = r.get c
  rw [lookupKey_dictOfZip hmv]
  by_cases hcc : c ∈ cols
  · simp only [hcc, if_pos]
    rfl
  · simp only [hcc, if_neg, if_false]
    symm
    exact (lookupKey_eq_none_iff _ _).mpr
      (fun p hp hpc => hcc (hpc ▸ hsub p hp))

theorem values_as_list_roundtrip_witness :
    (["x"] : List String).length = (["A"] : List String).length ∧
    (Tag.make (Tag.make "T" ["A"] ["x"]).tag_type ["A"] ["x"]).get "B" =
      (Tag.make "T" ["A"] ["x"]).get "B" := by
  have h := values_as_list_roundtrip c1cache (Tag.make "T" ["A"] ["x"]) ["A"] ["x"]
    (by decide) (by decide) (by decide)
  exact ⟨h.1, h.2.2 "B"⟩

/-- Claim C5: with the column order cached for the record's table,
`values_as_list` fails (the source's KeyError, the spec's SchemaError)
exactly when some cached column is missing from the record's fields, and
succeeds whenever every cached column is present. -/
theorem values_as_list_missing_column (cache : ColCache) (t : Tag) (cols : List String)
    (hc : lookupKey cache t.tag_type = some cols) :
    (t.values_as_list cache = none ↔ ∃ c ∈ cols, t.get c = none) ∧
    ((∀ c ∈ cols, (t.get c).isSome) → (t.values_as_list cache).isSome) := by
  unfold Tag.values_as_list
  rw [hc]
  simp only [Option.some_bind]
  constructor
  · rw [mapValues_eq_none_iff]
    exact Iff.rfl
  · intro h
    rw [mapValues_isSome_iff]
    exact h

theorem values_as_list_missing_column_witness :
    (c1r.values_as_list c1cache = none ↔ ∃ c ∈ ["A"], c1r.get c = none) ∧
    ((c1r.values_as_list c1cache).isSome) := by
  have h := values_as_list_missing_column c1cache c1r ["A"] (by decide)
  exact ⟨h.1, h.2 (by decide)⟩

/-- Claim C6: `remove_id_info` is idempotent, keeps the tag type, blanks
each of the three identity fields that is present (an absent identity
field stays absent), and leaves every other field unchanged; the source
returns `self`, which the embedding renders by returning the updated
record. -/
theorem remove_id_info_spec : ∀ t : Tag,
    t.remove_id_info.remove_id_info = t.remove_id_info ∧
    t.remove_id_info.tag_type = t.tag_type ∧
    (∀ p ∈ Tag.id_properties,
      ((t.get p).isSome → t.remove_id_info.get p = some "") ∧
      (t.get p = none → t.remove_id_info.get p = none)) ∧
    (∀ c, c ∉ Tag.id_properties → t.remove_id_info.get c = t.get c) := by
  intro t
  refine ⟨remove_id_info_idem t, remove_id_info_tag_type t, ?_, ?_⟩
  · intro p hp
    constructor
    · intro hs
      rw [get_remove_id_info, if_pos hp]
      rcases Option.isSome_iff_exists.mp hs with ⟨v, hv⟩
      rw [hv]
      rfl
    · intro hn
      rw [get_remove_id_info, if_pos hp, hn]
      rfl
  · intro c hc
    rw [get_remove_id_info, if_neg hc]

theorem remove_id_info_spec_witness :
    c2tag.remove_id_info.get Tag.id_col = some "" :=
  ((remove_id_info_spec c2tag).2.2.1 Tag.id_col (by decide)).1 (by decide)

/-- Claim C7: `separate_tags_by_type` is a stable partition: the group
stored under any table name `T` is exactly the sublist of input records of
type `T` in input order (and the key is absent when there is no such
record), and no table name occurs twice among the groups — so every input
record lands in exactly the group of its own table name, none dropped or
duplicated. -/
theorem separate_tags_by_type_partition : ∀ (l : List Tag) (T : String),
    (lookupKey (Tag.separate_tags_by_type l) T =
      if (l.filter (fun t => t.tag_type == T)).isEmpty then none
      else some (l.filter (fun t => t.tag_type == T))) ∧
    ((Tag.separate_tags_by_type l).map Prod.fst).Nodup := by
  intro l T
  constructor
  · unfold Tag.separate_tags_by_type
    rw [lookupKey_groupByKey]
    simp only [lookupKey_nil]
    cases hf : l.filter (fun t => t.tag_type == T) with
    | nil => simp
    | cons y ys => simp
  · exact groupByKey_keys_nodup _ l [] (by simp)

/-- Claim C8: the class-level column cache entry for a table name is
written by the first construction of a record of that type and never
replaced: constructing while the key is present returns the cache
untouched (whatever columns the construction passes), a first construction
installs its columns, and any cached entry survives any later
construction.  `Tag.set`, `Tag.get`, `Tag.remove_id_info` and
`Tag.values_as_list` do not appear because they are cache-free by type:
their embeddings neither receive a mutable cache nor return one. -/
theorem column_cache_write_once :
    ∀ (cache : ColCache) (T T' : String) (cols cols' vals : List String),
    ((lookupKey cache T').isSome → (Tag.init cache T' cols' vals).2 = cache) ∧
    (lookupKey cache T' = none →
      lookupKey (Tag.init cache T' cols' vals).2 T' = some cols') ∧
    (lookupKey cache T = some cols →
      lookupKey (Tag.init cache T' cols' vals).2 T = some cols) := by
  intro cache T T' cols cols' vals
  refine ⟨?_, ?_, ?_⟩
  · intro h
    simp [Tag.init, Tag.updateCache, h]
  · intro h
    simp only [Tag.init, Tag.updateCache, h, Option.isSome_none, Bool.false_eq_true, if_false]
    rw [lookupKey_append]
    simp [h]
  · intro h
    unfold Tag.init Tag.updateCache
    by_cases hs : (lookupKey cache T').isSome
    · simp [hs, h]
    · simp only [hs, if_false, Bool.false_eq_true]
      rw [lookupKey_append]
      simp [h]

theorem column_cache_write_once_witness :
    lookupKey (Tag.init c1cache "T" ["B"] []).2 "T" = some ["A"] :=
  (column_cache_write_once c1cache "T" "T" ["A"] ["B"] []).2.2 (by decide)

/-- Claim C3, counterexample: on a database whose only table `"T"` has zero
columns, `DBConnection.__init__` completes normally — the embedding of the
constructor is a total function, because `get_columns_by_type` only
`print`s the table name — and the schema cache ends up holding `("T", [])`,
the very state the claim says is impossible, while no SchemaError is
raised. -/
theorem open_zero_columns_cex :
    DBConnection.init c3db = ([("T", [])], ["T"]) := by decide

/-- Claim C3 (amended): a table with zero columns does not fail
construction: `get_columns_by_type` prints the table name (logged, not
silently skipped) and the table is cached with an empty column list. -/
theorem open_zero_columns_logged (db : Store) (T : String) (tbl : DBTable)
    (h : lookupKey db T = some tbl) (hz : tbl.columns = []) :
    (T, ([] : List String)) ∈ (DBConnection.init db).1 ∧ T ∈ (DBConnection.init db).2 := by
  have hmem : (T, tbl) ∈ db := mem_of_lookupKey h
  constructor
  · apply List.mem_map.mpr
    exact ⟨(T, tbl), hmem, by simp [DBConnection.get_columns_by_type, h, hz]⟩
  · apply List.mem_flatten.mpr
    refine ⟨[T], List.mem_map.mpr ⟨(T, tbl), hmem, ?_⟩, by simp⟩
    simp [DBConnection.get_columns_by_type, h, hz]

theorem open_zero_columns_logged_witness :
    ("T", ([] : List String)) ∈ (DBConnection.init c3db).1 ∧
    "T" ∈ (DBConnection.init c3db).2 :=
  open_zero_columns_logged c3db "T" ⟨[], []⟩ (by decide) (by decide)

/-- Claim C9, counterexample: on the two claimed input lines the parser
does group and strip as claimed, but it doubles every backslash of the tag
id (`line[0].replace('\\', '\\\\')`), so the resulting key has four
backslashes per separator and the claimed mapping with key `\\P\\T1` is
not the result: that key is absent. -/
theorem property_parser_cex :
    (GetTagValues c9lines).toOption.bind
      (fun d => lookupKey d "\\\\P\\\\T1") = none ∧
    GetTagValues c9lines ≠
      .ok [("\\\\P\\\\T1", [("TAG", "VAL1"), ("DESC", "VAL2")])] := by
  constructor
  · rfl
  · intro h
    rw [show GetTagValues c9lines =
      .ok [("\\\\\\\\P\\\\\\\\T1", [("TAG", "VAL1"), ("DESC", "VAL2")])] from rfl] at h
    injection h with h'
    exact absurd h' (by decide)

/-- Claim C9 (amended): the parser groups the comma-separated triples by
tag id with each backslash of the id doubled, and strips the `<type>`
suffix from the property names: the two claimed lines yield exactly
`{ "\\\\P\\\\T1": {"TAG": "VAL1", "DESC": "VAL2"} }` (four backslashes per
separator in the key). -/
theorem property_parser_grouping :
    GetTagValues c9lines =
      .ok [("\\\\\\\\P\\\\\\\\T1", [("TAG", "VAL1"), ("DESC", "VAL2")])] := rfl

/-- Unfolding of `get_tag_by_name` on an existing table. -/
theorem get_tag_by_name_eq (db : Store) (T name : String) (tbl : DBTable)
    (h : lookupKey db T = some tbl) :
    DBConnection.get_tag_by_name db T name =
      match tbl.rows.find? (fun row => nameMatches tbl name row) with
      | some row => some (Tag.make T tbl.columns row)
      | none => none := by
  unfold DBConnection.get_tag_by_name
  rw [h]

/-- Claim C4: `get_tag_by_name` on an existing table returns `None` exactly
when no row's `Name` ends with the last path segment of the argument, and
otherwise materializes the first matching row in store order as a record
built from the cached columns; in particular, on the example table the
call `get_tag_by_name "AB_AI" "LT101"` returns the row with
`Name = "\\Plant\\Area1\\LT101"` and its `shortname` is `"LT101"`. -/
theorem get_tag_by_name_spec :
    (∀ (db : Store) (T name : String) (tbl : DBTable), lookupKey db T = some tbl →
      ((DBConnection.get_tag_by_name db T name = none ↔
        ∀ row ∈ tbl.rows, nameMatches tbl name row = false) ∧
       (∀ row, tbl.rows.find? (fun r => nameMatches tbl name r) = some row →
        DBConnection.get_tag_by_name db T name = some (Tag.make T tbl.columns row)))) ∧
    (DBConnection.get_tag_by_name exampleStore "AB_AI" "LT101").map Tag.shortname =
      some (some "LT101") ∧
    (DBConnection.get_tag_by_name exampleStore "AB_AI" "LT101").map (fun t => t.get "Name") =
      some (some "\\\\Plant\\\\Area1\\\\LT101") := by
  refine ⟨?_, by decide, by decide⟩
  intro db T name tbl h
  constructor
  · rw [get_tag_by_name_eq db T name tbl h]
    cases hf : tbl.rows.find? (fun row => nameMatches tbl name row) with
    | some row =>
      constructor
      · intro habs
        cases habs
      · intro hall
        have hp : nameMatches tbl name row = true := List.find?_some hf
        have hmem : row ∈ tbl.rows := List.mem_of_find?_eq_some hf
        rw [hall row hmem] at hp
        cases hp
    | none =>
      constructor
      · intro _ row hmem
        have := List.find?_eq_none.mp hf row hmem
        simpa using this
      · intro _
        rfl
  · intro row hf
    rw [get_tag_by_name_eq db T name tbl h, hf]

theorem get_tag_by_name_spec_witness :
    DBConnection.get_tag_by_name exampleStore "AB_AI" "QQQ" = none := by
  have h := (get_tag_by_name_spec.1 exampleStore "AB_AI" "QQQ"
    ⟨["Name", Tag.id_col], [["\\\\Plant\\\\Area1\\\\LT101", "ID7"]]⟩ (by decide)).1
  exact h.mpr (by decide)

/-! ## Lemmas about the heap model of `add_tags` -/

theorem getD_set_ne (l : List Tag) {q r : Nat} (v : Tag) (h : q ≠ r) :
    (l.set q v).getD r dfltTag = l.getD r dfltTag := by
  rw [List.getD_eq_getElem?_getD, List.getD_eq_getElem?_getD, List.getElem?_set_ne h]

theorem getD_set_self (l : List Tag) {r : Nat} (v : Tag) :
    (l.set r v).getD r dfltTag = if r < l.length then v else l.getD r dfltTag := by
  by_cases h : r < l.length
  · rw [if_pos h, List.getD_eq_getElem?_getD, List.getElem?_set_eq_of_lt _ h]
    rfl
  · rw [if_neg h, List.getD_eq_getElem?_getD, List.getD_eq_getElem?_getD]
    rw [List.getElem?_eq_none (by simpa [List.length_set] using Nat.le_of_not_lt h),
      List.getElem?_eq_none (Nat.le_of_not_lt h)]

theorem getD_out_of_range (l : List Tag) {r : Nat} (h : ¬ r < l.length) :
    l.getD r dfltTag = dfltTag := by
  rw [List.getD_eq_getElem?_getD, List.getElem?_eq_none (Nat.le_of_not_lt h)]
  rfl

theorem add_refs_frame {cache : ColCache} {T : String} {flag : Bool}
    {store : Store} {heap : List Tag} {refs : List Nat} {store' : Store} {heap' : List Tag}
    {r : Nat} (hnot : r ∉ refs)
    (h : add_refs cache T flag store heap refs = .ok (store', heap')) :
    heap'.getD r dfltTag = heap.getD r dfltTag := by
  induction refs generalizing store heap with
  | nil =>
    simp only [add_refs, Except.ok.injEq, Prod.mk.injEq] at h
    rw [← h.2]
  | cons q rest ih =>
    simp only [add_refs] at h
    cases hi : insertRowQuery cache store T
        (if flag then (heap.getD q dfltTag).remove_id_info else heap.getD q dfltTag) with
    | error e => rw [hi] at h; cases h
    | ok store1 =>
      rw [hi] at h
      have hqr : q ≠ r := fun hq => hnot (hq ▸ List.mem_cons_self q rest)
      have hrest : r ∉ rest := fun hr => hnot (List.mem_cons_of_mem q hr)
      rw [ih hrest h, getD_set_ne _ _ hqr]

theorem add_groups_frame {cache : ColCache} {flag : Bool}
    {store : Store} {heap : List Tag} {groups : List (String × List Nat)}
    {store' : Store} {heap' : List Tag} {r : Nat}
    (hnot : ∀ Tg ∈ groups, r ∉ Tg.2)
    (h : add_groups cache flag store heap groups = .ok (store', heap')) :
    heap'.getD r dfltTag = heap.getD r dfltTag := by
  induction groups generalizing store heap with
  | nil =>
    simp only [add_groups, Except.ok.injEq, Prod.mk.injEq] at h
    rw [← h.2]
  | cons Tg rest ih =>
    cases Tg with
    | mk T g =>
      simp only [add_groups] at h
      cases hi : add_refs cache T flag store heap g with
      | error e => rw [hi] at h; cases h
      | ok p =>
        cases p with
        | mk store1 heap1 =>
          rw [hi] at h
          have h1 : heap1.getD r dfltTag = heap.getD r dfltTag :=
            add_refs_frame (hnot (T, g) (List.mem_cons_self _ _)) hi
          have hrest : ∀ Tg ∈ rest, r ∉ Tg.2 :=
            fun q hq => hnot q (List.mem_cons_of_mem _ hq)
          rw [ih hrest h, h1]

theorem add_refs_strips {cache : ColCache} {T : String}
    {store : Store} {heap : List Tag} {refs : List Nat} {store' : Store} {heap' : List Tag}
    {r : Nat} {S : Tag}
    (hS : heap.getD r dfltTag = S ∨ heap.getD r dfltTag = S.remove_id_info)
    (hmem : r ∈ refs)
    (h : add_refs cache T true store heap refs = .ok (store', heap')) :
    heap'.getD r dfltTag = S.remove_id_info := by
  induction refs generalizing store heap with
  | nil => simp at hmem
  | cons q rest ih =>
    simp only [add_refs, if_true] at h
    cases hi : insertRowQuery cache store T ((heap.getD q dfltTag).remove_id_info) with
    | error e => rw [hi] at h; cases h
    | ok store1 =>
      rw [hi] at h
      by_cases hqr : q = r
      · subst hqr
        have hval : (heap.set q ((heap.getD q dfltTag).remove_id_info)).getD q dfltTag =
            S.remove_id_info := by
          rw [getD_set_self]
          by_cases hlen : q < heap.length
          · rw [if_pos hlen]
            rcases hS with h1 | h1
            · rw [h1]
            · rw [h1]
              exact remove_id_info_idem S
          · rw [if_neg hlen]
            have hd : heap.getD q dfltTag = dfltTag := getD_out_of_range heap hlen
            rcases hS with h1 | h1
            · rw [hd] at h1 ⊢
              rw [← h1]
              rfl
            · rw [hd] at h1 ⊢
              exact h1
        by_cases hrest : q ∈ rest
        · exact ih (Or.inr hval) hrest h
        · rw [add_refs_frame hrest h]
          exact hval
      · have hset : (heap.set q ((heap.getD q dfltTag).remove_id_info)).getD r dfltTag =
            heap.getD r dfltTag := getD_set_ne _ _ hqr
        have hmem' : r ∈ rest := by
          rcases List.mem_cons.mp hmem with h' | h'
          · exact absurd h'.symm hqr
          · exact h'
        exact ih (by rw [hset]; exact hS) hmem' h

theorem add_groups_strips {cache : ColCache}
    {store : Store} {heap : List Tag} {groups : List (String × List Nat)}
    {store' : Store} {heap' : List Tag} {r : Nat} {S : Tag}
    (hS : heap.getD r dfltTag = S ∨ heap.getD r dfltTag = S.remove_id_info)
    (hmem : ∃ Tg ∈ groups, r ∈ Tg.2)
    (h : add_groups cache true store heap groups = .ok (store', heap')) :
    heap'.getD r dfltTag = S.remove_id_info := by
  induction groups generalizing store heap with
  | nil => simp at hmem
  | cons Tg rest ih =>
    cases Tg with
    | mk T g =>
      simp only [add_groups] at h
      cases hi : add_refs cache T true store heap g with
      | error e => rw [hi] at h; cases h
      | ok p =>
        cases p with
        | mk store1 heap1 =>
          rw [hi] at h
          by_cases hg : r ∈ g
          · have hval : heap1.getD r dfltTag = S.remove_id_info :=
              add_refs_strips hS hg hi
            by_cases hrest : ∃ Tg ∈ rest, r ∈ Tg.2
            · exact ih (Or.inr hval) hrest h
            · have hnot : ∀ Tg ∈ rest, r ∉ Tg.2 := by
                intro q hq hrq
                exact hrest ⟨q, hq, hrq⟩
              rw [add_groups_frame hnot h]
              exact hval
          · have h1 : heap1.getD r dfltTag = heap.getD r dfltTag :=
              add_refs_frame hg hi
            have hmem' : ∃ Tg ∈ rest, r ∈ Tg.2 := by
              rcases hmem with ⟨q, hq, hrq⟩
              rcases List.mem_cons.mp hq with rfl | hq'
              · exact absurd hrq hg
              · exact ⟨q, hq', hrq⟩
            exact ih (by rw [h1]; exact hS) hmem' h

/-- Claim C10: when `add_tags` is called with `remove_id_info = True` and
succeeds, the stripping happened on the caller's own record objects, not
on copies: afterwards every passed record (heap entry named by the passed
references) is exactly its old value with the identity fields stripped —
each identity field that was present now holds the empty string, and every
other field is unchanged. -/
theorem add_tags_strips_in_place (cache : ColCache) (store : Store) (heap : List Tag)
    (refs : List Nat) (store' : Store) (heap' : List Tag)
    (h : add_tags cache store heap refs true = .ok (store', heap')) :
    ∀ r ∈ refs,
      heap'.getD r dfltTag = (heap.getD r dfltTag).remove_id_info ∧
      (∀ p ∈ Tag.id_properties,
        ((heap.getD r dfltTag).get p).isSome → (heap'.getD r dfltTag).get p = some "") ∧
      (∀ c, c ∉ Tag.id_properties →
        (heap'.getD r dfltTag).get c = (heap.getD r dfltTag).get c) := by
  intro r hr
  have hmem : ∃ Tg ∈ groupByKey (fun x => (heap.getD x dfltTag).tag_type) [] refs,
      r ∈ Tg.2 := by
    have hfmem : r ∈ refs.filter
        (fun x => (heap.getD x dfltTag).tag_type == (heap.getD r dfltTag).tag_type) :=
      List.mem_filter.mpr ⟨hr, by simp⟩
    have hne : refs.filter
        (fun x => (heap.getD x dfltTag).tag_type == (heap.getD r dfltTag).tag_type) ≠ [] := by
      intro habs
      rw [habs] at hfmem
      simp at hfmem
    have hlk : lookupKey (groupByKey (fun x => (heap.getD x dfltTag).tag_type) [] refs)
        ((heap.getD r dfltTag).tag_type) =
        some (refs.filter
          (fun x => (heap.getD x dfltTag).tag_type == (heap.getD r dfltTag).tag_type)) := by
      rw [lookupKey_groupByKey]
      simp only [lookupKey_nil]
    exact ⟨_, mem_of_lookupKey hlk, hfmem⟩
  have hmain : heap'.getD r dfltTag = (heap.getD r dfltTag).remove_id_info :=
    add_groups_strips (Or.inl rfl) hmem h
  refine ⟨hmain, ?_, ?_⟩
  · intro p hp hsome
    rw [hmain, get_remove_id_info, if_pos hp]
    rcases Option.isSome_iff_exists.mp hsome with ⟨v, hv⟩
    rw [hv]
    rfl
  · intro c hc
    rw [hmain, get_remove_id_info, if_neg hc]

theorem add_tags_strips_in_place_witness :
    ([⟨"T", [("Name", "N1"), (Tag.id_col, "")]⟩] : List Tag).getD 0 dfltTag =
      (c10heap.getD 0 dfltTag).remove_id_info := by
  have h := add_tags_strips_in_place c2cache c10store c10heap [0]
    [("T", ⟨["Name", Tag.id_col], [["N1", ""]]⟩)]
    [⟨"T", [("Name", "N1"), (Tag.id_col, "")]⟩] rfl
  exact (h 0 (by decide)).1

theorem colIndex_getElem {cols : List String} {c : String} {j : Nat}
    (h : colIndex cols c = some j) : cols[j]? = some c := by
  induction cols generalizing j with
  | nil => simp [colIndex] at h
  | cons x rest ih =>
    unfold colIndex at h
    by_cases hx : x = c
    · rw [if_pos (by simp [hx])] at h
      cases h
      simp [hx]
    · rw [if_neg (by simp [hx])] at h
      cases hj : colIndex rest c with
      | none => rw [hj] at h; cases h
      | some j' =>
        rw [hj] at h
        have hjj : j = j' + 1 := by
          cases h
          rfl
        subst hjj
        simpa using ih hj

theorem updateRow_keeps {cols : List String} {pairs : List (String × String)}
    {row : List String} {i : Nat} {v0 : String} {c0 : String}
    (hi : colIndex cols c0 = some i)
    (hp : ∀ p ∈ pairs, p.1 = c0 → p.2 = v0)
    (hrow : row[i]? = some v0) :
    (updateRow cols row pairs)[i]? = some v0 := by
  induction pairs generalizing row with
  | nil => exact hrow
  | cons p rest ih =>
    unfold updateRow
    apply ih (fun q hq => hp q (List.mem_cons_of_mem p hq))
    unfold setNamed
    cases hj : colIndex cols p.1 with
    | none => exact hrow
    | some j =>
      by_cases hji : j = i
      · subst hji
        have h1 : cols[j]? = some p.1 := colIndex_getElem hj
        have h2 : cols[j]? = some c0 := colIndex_getElem hi
        have hpc : p.1 = c0 := by rw [h1] at h2; simpa using h2
        have hlt : j < row.length := by
          rcases List.getElem?_eq_some.mp hrow with ⟨hl, _⟩
          exact hl
        rw [hp p (List.mem_cons_self p rest) hpc]
        rw [List.getElem?_set_eq_of_lt _ hlt]
      · rw [List.getElem?_set_ne hji]
        exact hrow

theorem colsOf_updateKey_same {s : Store} {T : String} {tbl : DBTable}
    {rows' : List (List String)} (hlk : lookupKey s T = some tbl) :
    ∀ T', colsOf (updateKey s T ⟨tbl.columns, rows'⟩) T' = colsOf s T' := by
  intro T'
  unfold colsOf
  rw [lookupKey_updateKey]
  by_cases h : T' = T
  · subst h
    rw [hlk]
    simp
  · rw [if_neg h]

theorem ready_parts {cache : ColCache} {store : Store} {t : Tag}
    (h : tagReadyB cache store t = true) :
    (t.values_as_list cache).isSome = true ∧
    ∃ cols, colsOf store t.tag_type = some cols ∧
      (colIndex cols Tag.id_col).isSome = true ∧
      ∀ c ∈ (lookupKey cache t.tag_type).getD [], (colIndex cols c).isSome = true := by
  unfold tagReadyB at h
  rw [Bool.and_eq_true] at h
  refine ⟨h.1, ?_⟩
  have h2 := h.2
  cases hc : colsOf store t.tag_type with
  | none =>
    rw [hc] at h2
    simp [Option.any] at h2
  | some cols =>
    rw [hc] at h2
    simp only [Option.any] at h2
    rw [Bool.and_eq_true] at h2
    refine ⟨cols, rfl, h2.1, ?_⟩
    intro c hcm
    exact List.all_eq_true.mp h2.2 c hcm

theorem unmatchedP_of_bool {store : Store} {t : Tag} (h : tagUnmatchedB store t = true) :
    unmatchedP store t := by
  intro tbl hlk i hidx row hrow
  unfold tagUnmatchedB at h
  rw [hlk] at h
  simp only [Option.all] at h
  rw [hidx] at h
  simp only [Option.all] at h
  have := List.all_eq_true.mp h row hrow
  simpa using this

theorem preserve_unmatched {s : Store} {T : String} {tbl : DBTable} {i : Nat}
    {uid : Option String} {ucols values : List String} {d : List (String × String)}
    (hlk : lookupKey s T = some tbl)
    (hidx : colIndex tbl.columns Tag.id_col = some i)
    (hfound : ∃ f ∈ tbl.rows, matchesUid i uid f = true)
    (hzip : ∀ p ∈ ucols.zip values, lookupKey d p.1 = some p.2)
    (huid : uid = lookupKey d Tag.id_col)
    {t0 : Tag} (hun : unmatchedP s t0) :
    unmatchedP (updateKey s T
      ⟨tbl.columns,
       tbl.rows.map (fun row =>
         if matchesUid i uid row then updateRow tbl.columns row (ucols.zip values)
         else row)⟩) t0 := by
  intro tbl' hlk' i0 hidx0 row' hrow'
  rw [lookupKey_updateKey] at hlk'
  by_cases hT : t0.tag_type = T
  · rw [if_pos hT, hlk] at hlk'
    have htbl' : tbl' = ⟨tbl.columns,
        tbl.rows.map (fun row =>
          if matchesUid i uid row then updateRow tbl.columns row (ucols.zip values)
          else row)⟩ := by
      cases hlk'
      rfl
    subst htbl'
    have hii : i0 = i := by
      rw [hidx] at hidx0
      simpa using hidx0.symm
    subst hii
    rcases List.mem_map.mp hrow' with ⟨row, hrowmem, hroweq⟩
    subst hroweq
    by_cases hm : matchesUid i0 uid row = true
    · rw [if_pos hm]
      cases huidv : uid with
      | none =>
        rw [huidv] at hm
        simp [matchesUid] at hm
      | some v =>
        have hrowv : row[i0]? = some v := by
          rw [huidv] at hm
          simpa [matchesUid] using hm
        have hrow'v : (updateRow tbl.columns row (ucols.zip values))[i0]? = some v := by
          apply updateRow_keeps hidx ?_ hrowv
          intro p hp hpid
          have hz := hzip p hp
          rw [hpid] at hz
          rw [← huid, huidv] at hz
          simpa using hz.symm
        cases huid0 : t0.get Tag.id_col with
        | none => simp [matchesUid]
        | some w =>
          obtain ⟨f, hf, hfm⟩ := hfound
          have hfv : f[i0]? = some v := by
            rw [huidv] at hfm
            simpa [matchesUid] using hfm
          have hf0 : matchesUid i0 (t0.get Tag.id_col) f = false :=
            hun tbl (hT ▸ hlk) i0 hidx f hf
          rw [huid0] at hf0
          simp only [matchesUid, hfv, beq_iff_eq, Option.some.injEq] at hf0
          have hvw : ¬ v = w := by
            intro hh
            rw [hh] at hf0
            simp at hf0
          simp [matchesUid, hrow'v, hvw]
    · rw [if_neg hm]
      exact hun tbl (hT ▸ hlk) i0 hidx row hrowmem
  · rw [if_neg hT] at hlk'
    exact hun tbl' hlk' i0 hidx0 row' hrow'

theorem process_one_spec {cache : ColCache} {store0 s : Store} {T : String}
    {ucols : List String} {t : Tag}
    (hcols : ∀ T', colsOf s T' = colsOf store0 T')
    (hTt : t.tag_type = T)
    (hucols : lookupKey cache T = some ucols)
    (hready : tagReadyB cache store0 t = true) :
    (∃ s', process_one cache T ucols s t = .ok s' ∧
      (∀ T', colsOf s' T' = colsOf store0 T') ∧
      (∀ t0 : Tag, unmatchedP s t0 → unmatchedP s' t0)) ∨
    process_one cache T ucols s t = .error "Update failed - tag not found." := by
  obtain ⟨hv, cols, hcolsOf, hidxb, hallb⟩ := ready_parts hready
  have hcur : colsOf s t.tag_type = some cols := by rw [hcols, hcolsOf]
  have hexists : ∃ tbl, lookupKey s t.tag_type = some tbl ∧ tbl.columns = cols := by
    unfold colsOf at hcur
    cases hlk : lookupKey s t.tag_type with
    | none => rw [hlk] at hcur; cases hcur
    | some tbl =>
      rw [hlk] at hcur
      exact ⟨tbl, rfl, by simpa using hcur⟩
  obtain ⟨tbl, hlk, hcolstbl⟩ := hexists
  have hlkT : lookupKey s T = some tbl := hTt ▸ hlk
  obtain ⟨i, hidx⟩ := Option.isSome_iff_exists.mp (by rw [hcolstbl]; exact hidxb :
    (colIndex tbl.columns Tag.id_col).isSome = true)
  cases hfind : tbl.rows.find? (fun row => matchesUid i (t.get Tag.id_col) row) with
  | none =>
    right
    simp only [process_one, hlkT, hidx, hfind]
  | some f =>
    left
    obtain ⟨values, hvals⟩ := Option.isSome_iff_exists.mp hv
    have hmv : mapValues t.value_dict ucols = some values := by
      unfold Tag.values_as_list at hvals
      rw [hTt, hucols] at hvals
      simpa using hvals
    have hall : ucols.all (fun c => (colIndex tbl.columns c).isSome) = true := by
      rw [List.all_eq_true]
      intro c hcm
      rw [hcolstbl]
      apply hallb
      rw [hTt, hucols]
      exact hcm
    refine ⟨updateKey s T
      ⟨tbl.columns,
       tbl.rows.map (fun row =>
         if matchesUid i (t.get Tag.id_col) row then
           updateRow tbl.columns row (ucols.zip values)
         else row)⟩, ?_, ?_, ?_⟩
    · simp only [process_one, hlkT, hidx, hfind, hvals, hall, if_true]
    · intro T'
      rw [colsOf_updateKey_same hlkT, hcols]
    · intro t0 hun
      exact preserve_unmatched hlkT hidx
        ⟨f, List.mem_of_find?_eq_some hfind, List.find?_some hfind⟩
        (mapValues_zip hmv) rfl hun

theorem process_one_notfound {cache : ColCache} {store0 s : Store} {T : String}
    {ucols : List String} {t : Tag}
    (hcols : ∀ T', colsOf s T' = colsOf store0 T')
    (hTt : t.tag_type = T)
    (hready : tagReadyB cache store0 t = true)
    (hun : unmatchedP s t) :
    process_one cache T ucols s t = .error "Update failed - tag not found." := by
  obtain ⟨_, cols, hcolsOf, hidxb, _⟩ := ready_parts hready
  have hcur : colsOf s t.tag_type = some cols := by rw [hcols, hcolsOf]
  have hexists : ∃ tbl, lookupKey s t.tag_type = some tbl ∧ tbl.columns = cols := by
    unfold colsOf at hcur
    cases hlk : lookupKey s t.tag_type with
    | none => rw [hlk] at hcur; cases hcur
    | some tbl =>
      rw [hlk] at hcur
      exact ⟨tbl, rfl, by simpa using hcur⟩
  obtain ⟨tbl, hlk, hcolstbl⟩ := hexists
  have hlkT : lookupKey s T = some tbl := hTt ▸ hlk
  obtain ⟨i, hidx⟩ := Option.isSome_iff_exists.mp (by rw [hcolstbl]; exact hidxb :
    (colIndex tbl.columns Tag.id_col).isSome = true)
  have hfind : tbl.rows.find? (fun row => matchesUid i (t.get Tag.id_col) row) = none := by
    rw [List.find?_eq_none]
    intro row hrow
    rw [hun tbl hlk i hidx row hrow]
    simp
  simp only [process_one, hlkT, hidx, hfind]

theorem update_group_spec {cache : ColCache} {store0 : Store} {T : String}
    {ucols : List String} {g : List Tag}
    (hall : ∀ t ∈ g, tagReadyB cache store0 t = true ∧ t.tag_type = T)
    (hucols : lookupKey cache T = some ucols) :
    ∀ {s : Store}, (∀ T', colsOf s T' = colsOf store0 T') →
    (∃ s', update_group cache T ucols s g = .ok s' ∧
      (∀ T', colsOf s' T' = colsOf store0 T') ∧
      (∀ t0 : Tag, unmatchedP s t0 → unmatchedP s' t0)) ∨
    update_group cache T ucols s g = .error "Update failed - tag not found." := by
  induction g with
  | nil =>
    intro s hcols
    exact Or.inl ⟨s, rfl, hcols, fun _ h => h⟩
  | cons t rest ih =>
    intro s hcols
    have ht := hall t (List.mem_cons_self t rest)
    have hrest : ∀ t' ∈ rest, tagReadyB cache store0 t' = true ∧ t'.tag_type = T :=
      fun t' ht' => hall t' (List.mem_cons_of_mem t ht')
    unfold update_group
    rcases process_one_spec hcols ht.2 hucols ht.1 with ⟨s1, hok, hc1, hp1⟩ | herr
    · rw [hok]
      rcases ih hrest hc1 with ⟨s', hok', hc', hp'⟩ | herr'
      · exact Or.inl ⟨s', hok', hc', fun t0 h => hp' t0 (hp1 t0 h)⟩
      · exact Or.inr herr'
    · rw [herr]
      exact Or.inr rfl

theorem update_group_notfound {cache : ColCache} {store0 : Store} {T : String}
    {ucols : List String} {g : List Tag} {t0 : Tag}
    (hall : ∀ t ∈ g, tagReadyB cache store0 t = true ∧ t.tag_type = T)
    (hucols : lookupKey cache T = some ucols)
    (ht0 : t0 ∈ g) :
    ∀ {s : Store}, (∀ T', colsOf s T' = colsOf store0 T') → unmatchedP s t0 →
    update_group cache T ucols s g = .error "Update failed - tag not found." := by
  induction g with
  | nil => cases ht0
  | cons t rest ih =>
    intro s hcols hun
    have ht := hall t (List.mem_cons_self t rest)
    have hrest : ∀ t' ∈ rest, tagReadyB cache store0 t' = true ∧ t'.tag_type = T :=
      fun t' ht' => hall t' (List.mem_cons_of_mem t ht')
    unfold update_group
    by_cases heq : t = t0
    · subst heq
      rw [process_one_notfound hcols ht.2 ht.1 hun]
    · have ht0' : t0 ∈ rest := by
        rcases List.mem_cons.mp ht0 with h' | h'
        · exact absurd h'.symm heq
        · exact h'
      rcases process_one_spec hcols ht.2 hucols ht.1 with ⟨s1, hok, hc1, hp1⟩ | herr
      · rw [hok]
        exact ih hrest ht0' hc1 (hp1 t0 hun)
      · rw [herr]

theorem update_groups_notfound {cache : ColCache} {store0 : Store} {t0 : Tag} :
    ∀ (groups : List (String × List Tag)),
    (∀ Tg ∈ groups, Tg.2 ≠ [] ∧
      ∀ t ∈ Tg.2, tagReadyB cache store0 t = true ∧ t.tag_type = Tg.1) →
    (∃ Tg ∈ groups, t0 ∈ Tg.2) →
    ∀ (s : Store), (∀ T', colsOf s T' = colsOf store0 T') → unmatchedP s t0 →
    update_groups cache s groups = .error "Update failed - tag not found." := by
  intro groups
  induction groups with
  | nil =>
    intro _ hex
    obtain ⟨Tg, h, _⟩ := hex
    cases h
  | cons Tg rest ih =>
    intro hforall hex s hcols hun
    cases Tg with
    | mk T g =>
      have hhead := hforall (T, g) (List.mem_cons_self _ _)
      obtain ⟨t1, ht1⟩ := List.exists_mem_of_ne_nil _ hhead.1
      have ht1p := hhead.2 t1 ht1
      have hucols : ∃ ucols, lookupKey cache T = some ucols := by
        have hv := (ready_parts ht1p.1).1
        unfold Tag.values_as_list at hv
        cases hc : lookupKey cache t1.tag_type with
        | none => rw [hc] at hv; simp at hv
        | some u =>
          have ht1T : t1.tag_type = T := ht1p.2
          exact ⟨u, by rw [← ht1T]; exact hc⟩
      obtain ⟨ucols, hucols⟩ := hucols
      by_cases hg : t0 ∈ g
      · have hgrp := update_group_notfound hhead.2 hucols hg hcols hun
        simp only [update_groups, hucols, hgrp]
      · have hex' : ∃ Tg ∈ rest, t0 ∈ Tg.2 := by
          rcases hex with ⟨q, hq, hq2⟩
          rcases List.mem_cons.mp hq with rfl | hq'
          · exact absurd hq2 hg
          · exact ⟨q, hq', hq2⟩
        rcases update_group_spec hhead.2 hucols hcols with ⟨s1, hok, hc1, hp1⟩ | herr
        · simp only [update_groups, hucols, hok]
          exact ih (fun q hq => hforall q (List.mem_cons_of_mem _ hq)) hex' s1 hc1 (hp1 t0 hun)
        · simp only [update_groups, hucols, herr]

theorem exists_group_of_mem {α : Type} (key : α → String) (l : List α) {x : α}
    (hx : x ∈ l) : ∃ Tg ∈ groupByKey key [] l, x ∈ Tg.2 := by
  have hfmem : x ∈ l.filter (fun y => key y == key x) :=
    List.mem_filter.mpr ⟨hx, by simp⟩
  have hne : l.filter (fun y => key y == key x) ≠ [] := by
    intro habs
    rw [habs] at hfmem
    simp at hfmem
  have hlk : lookupKey (groupByKey key [] l) (key x) =
      some (l.filter (fun y => key y == key x)) := by
    rw [lookupKey_groupByKey]
    simp only [lookupKey_nil]
  exact ⟨_, mem_of_lookupKey hlk, hfmem⟩

/-- Claim C2: for a batch in which every record serializes against the
class cache and addresses an existing table that has the identity column
and all cached columns, if some record's identity value matches no row of
its table, then `update_tags` raises the source's
`"Update failed - tag not found."` and the final `cursor.commit()` is
never reached, leaving the backing store with its original contents: no
write performed earlier in the failing call is committed. -/
theorem update_tags_not_found (cache : ColCache) (store : Store) (tags : List Tag)
    (hready : ∀ t ∈ tags, tagReadyB cache store t = true)
    (hfail : ∃ t ∈ tags, tagUnmatchedB store t = true) :
    run_update_tags cache store tags = (store, some "Update failed - tag not found.") := by
  obtain ⟨t0, ht0, hunb⟩ := hfail
  have hun : unmatchedP store t0 := unmatchedP_of_bool hunb
  have hforall : ∀ Tg ∈ Tag.separate_tags_by_type tags, Tg.2 ≠ [] ∧
      ∀ t ∈ Tg.2, tagReadyB cache store t = true ∧ t.tag_type = Tg.1 := by
    intro Tg hTg
    cases Tg with
    | mk T g =>
      obtain ⟨hfil, hne⟩ := groupByKey_entry
        (by simpa [Tag.separate_tags_by_type] using hTg)
      refine ⟨hne, ?_⟩
      intro t ht
      have hmem := List.mem_filter.mp (hfil ▸ ht)
      exact ⟨hready t hmem.1, by simpa using hmem.2⟩
  have hex : ∃ Tg ∈ Tag.separate_tags_by_type tags, t0 ∈ Tg.2 :=
    exists_group_of_mem (fun t : Tag => t.tag_type) tags ht0
  have hrun := update_groups_notfound (Tag.separate_tags_by_type tags) hforall hex store
    (fun _ => rfl) hun
  unfold run_update_tags update_tags
  rw [hrun]

theorem update_tags_not_found_witness :
    run_update_tags c2cache c2store [c2tag] =
      (c2store, some "Update failed - tag not found.") :=
  update_tags_not_found c2cache c2store [c2tag] (by decide) (by decide)
